import Mathlib

/-!
Shallow embedding of the Fugue text CRDT of this repository
(src/core/src/crdt/text_fugue/{node.rs, block.rs, text.rs}), used to check
the specification claims.

Modelling conventions, justified against the source:

* `u64`/`usize` are embedded as `Nat`.  Rust `saturating_sub` coincides with
  truncated `Nat` subtraction.  The one unchecked `u64` subtraction, in
  `split_block_for_deletion` (`orig_id.clock - block_len + 1`), is also
  embedded as truncated subtraction; on states satisfying the data model's
  invariant `length(text) ≤ id.clock` the two agree exactly.

* Rust text payloads are embedded pre-segmented: a payload is a
  `List (List Char)`, its list of Unicode extended grapheme clusters, each
  cluster a list of scalar values.  Segmentation itself is performed in the
  source by the external `unicode_segmentation` crate, so it is input data
  here.  The rope stores scalar values (`List Char`); `Rope::len_chars` is
  the length of that list.  Byte positions are identified with char
  positions: UTF-8 is injective and order preserving, so byte-identity of
  strings is equality of char lists and the byte/char conversion is a
  relabelling.

* Rust compares `String`s bytewise on their UTF-8 encoding; this equals the
  lexicographic order on scalar values (`charsCmp` below), because UTF-8 is
  order preserving.

* The position cache (`cache_valid`, `cached_blocks`, `cached_start_pos`)
  is modelled by recomputation: in the source every mutating operation
  invalidates the cache and every reader rebuilds it before use
  (`rebuild_position_cache`), so at each use site the cache equals the
  freshly rebuilt value, which is what `visibleWithPos` computes.

* `binary_search_by` over the cached block vector is embedded as the linear
  scan `searchVP`.  The comparator is monotone over the cached vector (the
  cached start positions are consecutive cumulative sums), so binary search
  and the scan return the same index.

* The `HashMap`-based tree code sorts roots and children before every use,
  so map iteration order is irrelevant; the tree is a `List TreeNode`.  The
  recursions of `in_order_visit` and `is_ancestor_in_tree` are given
  explicit fuel: the source recursion does not terminate on cyclic parent
  graphs (which do not arise on reachable states), and the fuel bound
  `tree.length + 1` is enough for every acyclic input.
-/

/-- Three-way comparison on `Nat`, mirroring `u64::cmp`. -/
def natCmp (m n : Nat) : Ordering :=
  if m < n then .lt else if n < m then .gt else .eq

/-- Lexicographic comparison of scalar-value sequences, mirroring Rust's
bytewise `String::cmp` (UTF-8 is order preserving). -/
def charsCmp : List Char → List Char → Ordering
  | [], [] => .eq
  | [], _ :: _ => .lt
  | _ :: _, [] => .gt
  | c :: cs, d :: ds => if c = d then charsCmp cs ds else if c < d then .lt else .gt

/-- Comparison of replica identifiers (Rust `String::cmp`). -/
def strCmp (a b : String) : Ordering := charsCmp a.data b.data

/-- `NodeId` from node.rs: `(client_id, clock, offset)`. -/
structure NodeId where
  client_id : String
  clock : Nat
  offset : Nat
deriving DecidableEq

/-- The `Ord` implementation of node.rs: primary by Lamport clock, then
client id lexicographically, then offset. -/
def NodeId.cmp (x y : NodeId) : Ordering :=
  match natCmp x.clock y.clock with
  | .eq =>
    match strCmp x.client_id y.client_id with
    | .eq => natCmp x.offset y.offset
    | o => o
  | o => o

/-- `FugueBlock` from block.rs.  The cached positions (`rope_start`,
`cached_start_pos`) are derived state, recomputed before each use in the
source; they are omitted (see the module comment). -/
structure FugueBlock where
  id : NodeId
  text : List (List Char)
  left_origin : Option NodeId
  right_origin : Option NodeId
  deleted : Bool
deriving DecidableEq

/-- `FugueBlock::len`: number of grapheme clusters of the payload. -/
def FugueBlock.len (b : FugueBlock) : Nat := b.text.length

/-- `FugueBlock::mark_deleted`. -/
def FugueBlock.mark_deleted (b : FugueBlock) : FugueBlock := { b with deleted := true }

/-- The block store: `BTreeMap<NodeId, FugueBlock>`, embedded as its sorted
association list (sorted by `NodeId.cmp`, unique keys). -/
abbrev Store := List (NodeId × FugueBlock)

/-- `BTreeMap::insert`: insert at the sorted position, replacing the entry
with an equal key if present. -/
def storeInsert : Store → NodeId → FugueBlock → Store
  | [], k, v => [(k, v)]
  | (k', v') :: rest, k, v =>
    match NodeId.cmp k k' with
    | .lt => (k, v) :: (k', v') :: rest
    | .eq => (k, v) :: rest
    | .gt => (k', v') :: storeInsert rest k v

/-- `BTreeMap::remove` (key removal; on the unique-key stores produced by
the operations this removes at most one entry). -/
def storeErase : Store → NodeId → Store
  | [], _ => []
  | (k', v) :: rest, k => if k' = k then storeErase rest k else (k', v) :: storeErase rest k

/-- `BTreeMap::get`. -/
def storeFind : Store → NodeId → Option FugueBlock
  | [], _ => none
  | (k', v) :: rest, k => if k' = k then some v else storeFind rest k

/-- `BTreeMap::contains_key`. -/
def storeContains (s : Store) (k : NodeId) : Bool := (storeFind s k).isSome

/-- `TextError` from text.rs. -/
inductive TextError where
  | PositionOutOfBounds (position length : Nat)
  | RangeOutOfBounds (start stop length : Nat)
  | BlockNotFound (id : NodeId)
  | BlockSplitRequired
  | InvalidBlockSplit (block_id : NodeId) (offset_start offset_end block_len : Nat)
  | RopeError (msg : List Char)
deriving DecidableEq

/-- `LamportClock` from text.rs. -/
structure LamportClock where
  value : Nat
deriving DecidableEq

/-- `LamportClock::tick_by`: returns the new value (the last clock of the
allocated range) together with the updated clock. -/
def LamportClock.tick_by (c : LamportClock) (count : Nat) : Nat × LamportClock :=
  (c.value + count, ⟨c.value + count⟩)

/-- `LamportClock::update`: `value = max(value, remote)`. -/
def LamportClock.update (c : LamportClock) (remote : Nat) : LamportClock :=
  ⟨max c.value remote⟩

/-- `FugueText` from text.rs: rope mirror, block store, Lamport clock and
replica id (the cache fields are derived state, see the module comment). -/
structure FugueText where
  rope : List Char
  blocks : Store
  clock : LamportClock
  client_id : String
deriving DecidableEq

/-- `FugueText::new`. -/
def FugueText.new (client_id : String) : FugueText := ⟨[], [], ⟨0⟩, client_id⟩

/-- `FugueText::len`: `rope.len_chars()` — the number of scalar values of
the rope. -/
def FugueText.len (e : FugueText) : Nat := e.rope.length

/-- `FugueText::to_string`: the rope contents.  Byte-identity of the Rust
strings is equality of these char lists. -/
def FugueText.to_string (e : FugueText) : List Char := e.rope

/-- `Side` from text.rs. -/
inductive Side where
  | left
  | right
deriving DecidableEq

/-- `TreeNode` from text.rs. -/
structure TreeNode where
  id : NodeId
  parent : Option NodeId
  side : Side
  deleted : Bool
deriving DecidableEq

/-- The guard of `find_block_for_nodeid`: the entry's key is on the same
replica, the block is nonempty, and the block's clock range
`[clock − len + 1, clock]` (with saturating subtraction) contains the
character clock. -/
def blockMatches (k : NodeId) (b : FugueBlock) (nid : NodeId) : Prop :=
  k.client_id = nid.client_id ∧ b.len ≠ 0 ∧
    k.clock - (b.len - 1) ≤ nid.clock ∧ nid.clock ≤ k.clock

instance (k : NodeId) (b : FugueBlock) (nid : NodeId) : Decidable (blockMatches k b nid) := by
  unfold blockMatches; infer_instance

/-- `FugueText::find_block_for_nodeid`: first block (in map order) whose
clock range on the right replica contains the character clock. -/
def findBlockForNodeId : Store → NodeId → Option NodeId
  | [], _ => none
  | (k, b) :: rest, nid =>
    if blockMatches k b nid then some k else findBlockForNodeId rest nid

/-- `HashMap::get` over the reconstructed tree. -/
def treeFind : List TreeNode → NodeId → Option TreeNode
  | [], _ => none
  | n :: rest, k => if n.id = k then some n else treeFind rest k

/-- `FugueText::is_ancestor_in_tree`, with fuel (see the module comment). -/
def isAncestorInTree (a : NodeId) (tree : List TreeNode) : Nat → Option NodeId → Bool
  | _, none => false
  | 0, some _ => false
  | fuel + 1, some cur =>
    if cur = a then true
    else isAncestorInTree a tree fuel ((treeFind tree cur).bind TreeNode.parent)

/-- `FugueText::determine_parent_and_side`. -/
def determineParentAndSide (leftO rightO : Option NodeId) (tree : List TreeNode) :
    Option NodeId × Side :=
  match leftO, rightO with
  | none, none => (none, .right)
  | some a, none => (some a, .right)
  | none, some b => (some b, .left)
  | some a, some b =>
    if isAncestorInTree a tree (tree.length + 1) (some b) then (some b, .left)
    else (some a, .right)

/-- Insertion step of the insertion sort used to mirror `Vec::sort` on
`Vec<NodeId>`. -/
def insertSortedId (x : NodeId) : List NodeId → List NodeId
  | [] => [x]
  | y :: ys =>
    match NodeId.cmp x y with
    | .gt => y :: insertSortedId x ys
    | _ => x :: y :: ys

/-- `Vec::sort` on node ids (ids are unique where this is used, so any
stable comparison sort gives the same result). -/
def sortIds (l : List NodeId) : List NodeId := l.foldr insertSortedId []

/-- Insertion step of the sort of `(NodeId, FugueBlock)` pairs by key,
mirroring `sorted_blocks.sort_by_key(|(id, _)| *id)`. -/
def insertSortedKB (x : NodeId × FugueBlock) :
    List (NodeId × FugueBlock) → List (NodeId × FugueBlock)
  | [] => [x]
  | y :: ys =>
    match NodeId.cmp x.1 y.1 with
    | .gt => y :: insertSortedKB x ys
    | _ => x :: y :: ys

/-- Sort the block list by identifier (`reconstruct_fugue_tree` step 0). -/
def sortStore (s : Store) : Store := s.foldr insertSortedKB []

/-- `FugueText::reconstruct_fugue_tree`: process blocks in identifier
order; map character-level origins to containing blocks; determine parent
and side against the partial tree. -/
def reconstructFugueTree (s : Store) : List TreeNode :=
  (sortStore s).foldl
    (fun tree kb =>
      let leftB := kb.2.left_origin.bind (findBlockForNodeId s)
      let rightB := kb.2.right_origin.bind (findBlockForNodeId s)
      let ps := determineParentAndSide leftB rightB tree
      tree ++ [⟨kb.1, ps.1, ps.2, kb.2.deleted⟩])
    []

/-- Children of a node on one side, sorted by id (`in_order_visit`
filters the tree and sorts). -/
def childIds (tree : List TreeNode) (p : NodeId) (s : Side) : List NodeId :=
  sortIds ((tree.filter (fun n => decide (n.parent = some p ∧ n.side = s))).map TreeNode.id)

/-- `FugueText::in_order_visit`, with fuel (see the module comment):
left children in order, then the node itself if not deleted, then right
children in order. -/
def inOrderVisit (tree : List TreeNode) : Nat → NodeId → List NodeId
  | 0, _ => []
  | fuel + 1, nid =>
    match treeFind tree nid with
    | none => []
    | some n =>
      ((childIds tree nid .left).foldl (fun acc c => acc ++ inOrderVisit tree fuel c) [])
        ++ (if n.deleted then [] else [nid])
        ++ ((childIds tree nid .right).foldl (fun acc c => acc ++ inOrderVisit tree fuel c) [])

/-- `FugueText::in_order_traversal`: visit every root (sorted by id). -/
def inOrderTraversal (tree : List TreeNode) : List NodeId :=
  (sortIds ((tree.filter (fun n => n.parent.isNone)).map TreeNode.id)).foldl
    (fun acc r => acc ++ inOrderVisit tree (tree.length + 1) r) []

/-- `FugueText::get_document_order`. -/
def documentOrder (s : Store) : List NodeId := inOrderTraversal (reconstructFugueTree s)

/-- Accumulation loop of `FugueText::rebuild_position_cache`: walk the
document order, skip deleted blocks, record each visible block's grapheme
start position. -/
def cachePositions (s : Store) : List NodeId → Nat → List (NodeId × Nat)
  | [], _ => []
  | id :: rest, cur =>
    match storeFind s id with
    | some b =>
      if b.deleted then cachePositions s rest cur
      else (id, cur) :: cachePositions s rest (cur + b.len)
    | none => cachePositions s rest cur

/-- The freshly rebuilt position cache: visible blocks in document order
with their grapheme start positions. -/
def visibleWithPos (s : Store) : List (NodeId × Nat) := cachePositions s (documentOrder s) 0

/-- Lookup of a block's cached start position. -/
def lookupPos : List (NodeId × Nat) → NodeId → Option Nat
  | [], _ => none
  | (k, p) :: rest, key => if k = key then some p else lookupPos rest key

/-- Grapheme length of the block stored under a key (`self.blocks[id].len()`;
the keys looked up always exist in the store). -/
def blockLenAt (s : Store) (k : NodeId) : Nat := ((storeFind s k).map FugueBlock.len).getD 0

/-- The `binary_search_by` of find_origins / get_node_id_at_position,
embedded as a linear scan (the comparator is monotone over the cached
vector, see the module comment).  `.inl i` is `Ok(i)` (the block at index
`i` contains the position), `.inr i` is `Err(i)` (insertion point `i`). -/
def searchVP (s : Store) (pos : Nat) : List (NodeId × Nat) → Nat → Nat ⊕ Nat
  | [], i => .inr i
  | (id, st) :: rest, i =>
    if pos < st then .inr i
    else if pos ≥ st + blockLenAt s id then searchVP s pos rest (i + 1)
    else .inl i

/-- `block_id.clock.saturating_sub(block_len - 1)`: the first clock of a
block's range. -/
def startClockOf (k : NodeId) (blen : Nat) : Nat := k.clock - (blen - 1)

/-- `FugueText::find_origins` (the rebuilt-cache path, which is the one
taken at every call site: every preceding mutation invalidates the
cache). -/
def findOrigins (e : FugueText) (pos : Nat) : Option NodeId × Option NodeId :=
  let s := e.blocks
  let vp := visibleWithPos s
  if vp.isEmpty then (none, none)
  else
    match searchVP s pos vp 0 with
    | .inl idx =>
      match vp[idx]? with
      | none => (none, none)
      | some (id, st) =>
        let blen := blockLenAt s id
        if pos = st then
          let lo :=
            if idx > 0 then
              match vp[idx - 1]? with
              | some (pid, _) => some (NodeId.mk pid.client_id pid.clock 0)
              | none => none
            else none
          (lo, some (NodeId.mk id.client_id (startClockOf id blen) 0))
        else if pos = st + blen then
          let ro :=
            match vp[idx + 1]? with
            | some (nid2, _) =>
              some (NodeId.mk nid2.client_id (startClockOf nid2 (blockLenAt s nid2)) 0)
            | none => none
          (some (NodeId.mk id.client_id id.clock 0), ro)
        else
          let off := pos - st
          (some (NodeId.mk id.client_id (startClockOf id blen + off - 1) 0),
           some (NodeId.mk id.client_id (startClockOf id blen + off) 0))
    | .inr idx =>
      if idx = 0 then
        match vp[0]? with
        | some (fid, _) =>
          (none, some (NodeId.mk fid.client_id (startClockOf fid (blockLenAt s fid)) 0))
        | none => (none, none)
      else if idx ≥ vp.length then
        match vp[vp.length - 1]? with
        | some (lid, _) => (some (NodeId.mk lid.client_id lid.clock 0), none)
        | none => (none, none)
      else
        let lo :=
          match vp[idx - 1]? with
          | some (pid, _) => some (NodeId.mk pid.client_id pid.clock 0)
          | none => none
        let ro :=
          match vp[idx]? with
          | some (rid, _) =>
            some (NodeId.mk rid.client_id (startClockOf rid (blockLenAt s rid)) 0)
          | none => none
        (lo, ro)

/-- `FugueText::insert`.  The result pairs the post-call engine state with
the returned `Result` (error-path state is the unchanged engine). -/
def FugueText.insert (e : FugueText) (position : Nat) (text : List (List Char)) :
    FugueText × Except TextError NodeId :=
  let len := e.len
  if position > len then
    (e, .error (.PositionOutOfBounds position len))
  else
    let origins := findOrigins e position
    let char_count := text.length
    let tk := LamportClock.tick_by e.clock char_count
    let id : NodeId := ⟨e.client_id, tk.1, 0⟩
    let block : FugueBlock := ⟨id, text, origins.1, origins.2, false⟩
    ({ rope := e.rope.take position ++ text.flatten ++ e.rope.drop position,
       blocks := storeInsert e.blocks id block,
       clock := tk.2,
       client_id := e.client_id },
     .ok id)

/-- One entry of the `blocks_to_split` vector of `FugueText::delete`. -/
structure SplitEntry where
  origId : NodeId
  origBlock : FugueBlock
  blockStart : Nat
  offStart : Nat
  offEnd : Nat
deriving DecidableEq

/-- First pass of `FugueText::delete`: walk the store in identifier order,
skip tombstones, accumulate grapheme offsets, and collect each visible
block overlapping `[p, p + l)` with its overlap offsets. -/
def deleteFirstPass (p l : Nat) : Store → Nat → List SplitEntry
  | [], _ => []
  | (id, b) :: rest, cur =>
    if b.deleted then deleteFirstPass p l rest cur
    else
      let blen := b.len
      let here :=
        if cur < p + l ∧ cur + blen > p then
          [⟨id, b, cur, max p cur - cur, min (p + l) (cur + blen) - cur⟩]
        else []
      here ++ deleteFirstPass p l rest (cur + blen)

/-- `FugueText::split_block_for_deletion`: replace the parent block by up
to three slices carrying the parent's origins; the middle slice is
tombstoned and its id appended to `deleted_ids`. -/
def splitBlockForDeletion (s : Store) (origId : NodeId) (origBlock : FugueBlock)
    (offset_start offset_end : Nat) (deleted_ids : List NodeId) :
    Except TextError (Store × List NodeId) :=
  let graphemes := origBlock.text
  let block_len := graphemes.length
  if offset_start ≥ block_len ∨ offset_end > block_len ∨ offset_start ≥ offset_end then
    .error (.InvalidBlockSplit origId offset_start offset_end block_len)
  else
    let left_text := graphemes.take offset_start
    let middle_text := (graphemes.drop offset_start).take (offset_end - offset_start)
    let right_text := graphemes.drop offset_end
    let block_start_clock := origId.clock - block_len + 1
    if ¬ storeContains s origId then .ok (s, deleted_ids)
    else
      let s1 := storeErase s origId
      let s2 :=
        if left_text.isEmpty then s1
        else
          let left_id : NodeId := ⟨origId.client_id, block_start_clock + offset_start - 1, 0⟩
          storeInsert s1 left_id
            ⟨left_id, left_text, origBlock.left_origin, origBlock.right_origin, false⟩
      let middle_id : NodeId := ⟨origId.client_id, block_start_clock + offset_end - 1, 0⟩
      let s3 := storeInsert s2 middle_id
        ⟨middle_id, middle_text, origBlock.left_origin, origBlock.right_origin, true⟩
      let s4 :=
        if right_text.isEmpty then s3
        else
          let right_id : NodeId := ⟨origId.client_id, block_start_clock + block_len - 1, 0⟩
          storeInsert s3 right_id
            ⟨right_id, right_text, origBlock.left_origin, origBlock.right_origin, false⟩
      .ok (s4, deleted_ids ++ [middle_id])

/-- Second pass of `FugueText::delete`: split partially covered blocks,
tombstone fully covered ones.  On error the store reached so far is kept
(the source mutates `self` in place and propagates the error with `?`). -/
def deleteSecondPass : Store → List NodeId → List SplitEntry →
    Store × List NodeId × Option TextError
  | s, ids, [] => (s, ids, none)
  | s, ids, entry :: rest =>
    if entry.offStart > 0 ∨ entry.offEnd < entry.origBlock.len then
      match splitBlockForDeletion s entry.origId entry.origBlock
          entry.offStart entry.offEnd ids with
      | .error err => (s, ids, some err)
      | .ok si => deleteSecondPass si.1 si.2 rest
    else
      match storeFind s entry.origId with
      | some b =>
        deleteSecondPass (storeInsert s entry.origId (FugueBlock.mark_deleted b))
          (ids ++ [entry.origId]) rest
      | none => deleteSecondPass s ids rest

/-- `FugueText::delete`.  The result pairs the post-call engine state with
the returned `Result`. -/
def FugueText.delete (e : FugueText) (position length : Nat) :
    FugueText × Except TextError (List NodeId) :=
  let doc_len := e.len
  if position + length > doc_len then
    (e, .error (.RangeOutOfBounds position (position + length) doc_len))
  else
    let entries := deleteFirstPass position length e.blocks 0
    match deleteSecondPass e.blocks [] entries with
    | (s, _, some err) => ({ e with blocks := s }, .error err)
    | (s, ids, none) =>
      if ids.isEmpty then ({ e with blocks := s }, .ok ids)
      else
        ({ e with
            blocks := s,
            rope := e.rope.take position ++ e.rope.drop (position + length) },
         .ok ids)

/-- `FugueText::rebuild_rope`: concatenate visible block payloads in
document order. -/
def rebuildRopeText (s : Store) : List Char :=
  (documentOrder s).foldl
    (fun acc id =>
      match storeFind s id with
      | some b => if b.deleted then acc else acc ++ b.text.flatten
      | none => acc)
    []

/-- Block-store merge loop of `FugueText::merge`: clone in unknown remote
blocks; for blocks present on both sides, tombstone locally when the
remote copy is tombstoned and the local one is not. -/
def mergeStore (localS : Store) (remoteBlocks : List (NodeId × FugueBlock)) : Store :=
  remoteBlocks.foldl
    (fun acc kb =>
      match storeFind acc kb.1 with
      | some lb =>
        if kb.2.deleted && !lb.deleted then storeInsert acc kb.1 (FugueBlock.mark_deleted lb)
        else acc
      | none => storeInsert acc kb.1 kb.2)
    localS

/-- Maximum clock among the remote blocks (`max().unwrap_or(0)`). -/
def maxRemoteClock (remoteBlocks : List (NodeId × FugueBlock)) : Nat :=
  remoteBlocks.foldl (fun m kb => max m kb.2.id.clock) 0

/-- `FugueText::merge`: absorb remote blocks, rebuild the rope from the
document order, raise the Lamport clock to the max remote block clock. -/
def FugueText.merge (e remote : FugueText) : FugueText :=
  let blocks := mergeStore e.blocks remote.blocks
  { rope := rebuildRopeText blocks,
    blocks := blocks,
    clock := LamportClock.update e.clock (maxRemoteClock remote.blocks),
    client_id := e.client_id }

/-- `FugueText::merge` with its `Result<(), TextError>` return value (the
source returns `Ok(())` unconditionally). -/
def FugueText.mergeOp (e remote : FugueText) : FugueText × Except TextError Unit :=
  (e.merge remote, .ok ())

/-- `FugueText::get_node_id_at_position`: resolve the visible block
containing the position (via the rebuilt cache) and return the
character-level id `(replica, block_start_clock + offset, 0)`. -/
def FugueText.get_node_id_at_position (e : FugueText) (position : Nat) :
    Except TextError NodeId :=
  let len := e.len
  if position ≥ len then .error (.PositionOutOfBounds position len)
  else
    let vp := visibleWithPos e.blocks
    if vp.isEmpty then .error (.PositionOutOfBounds position len)
    else
      match searchVP e.blocks position vp 0 with
      | .inl idx =>
        match vp[idx]? with
        | some (id, st) =>
          .ok ⟨id.client_id, startClockOf id (blockLenAt e.blocks id) + (position - st), 0⟩
        | none => .error (.PositionOutOfBounds position len)
      | .inr _ => .error (.PositionOutOfBounds position len)

/-- `FugueText::get_position_of_node_id`: resolve the containing block via
the clock-range lookup; `none` for tombstoned or missing blocks, else the
block's start position plus the clock offset. -/
def FugueText.get_position_of_node_id (e : FugueText) (nid : NodeId) : Option Nat :=
  match findBlockForNodeId e.blocks nid with
  | none => none
  | some block_id =>
    match storeFind e.blocks block_id with
    | none => none
    | some b =>
      if b.deleted then none
      else
        let offset := nid.clock - startClockOf block_id b.len
        if offset ≥ b.len then none
        else
          match lookupPos (visibleWithPos e.blocks) block_id with
          | some st => some (st + offset)
          | none => none

/-- The serialized form of an engine (`impl Serialize for FugueText`):
the `(identifier, block)` pairs in identifier order, the Lamport clock,
and the replica id.  Cached positions are not serialized. -/
structure FugueTextSerialized where
  blocks : List (NodeId × FugueBlock)
  clock : LamportClock
  client_id : String
deriving DecidableEq

/-- `impl Serialize for FugueText`: the store is already the sorted pair
list. -/
def FugueText.serialize (e : FugueText) : FugueTextSerialized :=
  ⟨e.blocks, e.clock, e.client_id⟩

/-- `impl Deserialize for FugueText`: rebuild the map from the pairs, then
rebuild the rope by concatenating non-deleted block payloads in map
(identifier) order — exactly as the source does (`for block in
blocks.values()`), not in document order. -/
def FugueText.deserialize (h : FugueTextSerialized) : FugueText :=
  let blocks := h.blocks.foldl (fun acc kb => storeInsert acc kb.1 kb.2) []
  { rope := blocks.foldl (fun acc kb => if kb.2.deleted then acc else acc ++ kb.2.text.flatten) [],
    blocks := blocks,
    clock := h.clock,
    client_id := h.client_id }

/-- Engine states reachable by `new` followed by any finite sequence of
`insert`, `delete` and `merge` (merging from reachable remotes). -/
inductive Reachable : FugueText → Prop where
  | new (client_id : String) : Reachable (FugueText.new client_id)
  | insert (e : FugueText) (p : Nat) (t : List (List Char)) :
      Reachable e → Reachable (FugueText.insert e p t).1
  | delete (e : FugueText) (p l : Nat) :
      Reachable e → Reachable (FugueText.delete e p l).1
  | merge (a b : FugueText) : Reachable a → Reachable b → Reachable (a.merge b)


/-! ### Basic facts about the comparison functions and the store -/

theorem natCmp_eq_iff (m n : Nat) : natCmp m n = .eq ↔ m = n := by
  unfold natCmp
  split_ifs with h1 h2 <;> constructor <;> intro h <;> first | omega | simp_all

theorem charsCmp_eq_iff : ∀ (xs ys : List Char), charsCmp xs ys = .eq ↔ xs = ys
  | [], [] => by simp [charsCmp]
  | [], _ :: _ => by simp [charsCmp]
  | _ :: _, [] => by simp [charsCmp]
  | x :: xs, y :: ys => by
    simp only [charsCmp]
    split_ifs with h1 h2
    · subst h1
      rw [charsCmp_eq_iff xs ys]
      simp
    · constructor <;> intro h <;> simp_all
    · constructor <;> intro h <;> simp_all

theorem strCmp_eq_iff (a b : String) : strCmp a b = .eq ↔ a = b := by
  cases a with
  | mk da =>
    cases b with
    | mk db =>
      simp only [strCmp, charsCmp_eq_iff]
      constructor
      · intro h
        exact congrArg String.mk h
      · intro h
        cases h
        rfl

theorem natCmp_self (n : Nat) : natCmp n n = .eq := (natCmp_eq_iff n n).mpr rfl

theorem strCmp_self (a : String) : strCmp a a = .eq := (strCmp_eq_iff a a).mpr rfl

theorem NodeId.cmp_eq_iff (x y : NodeId) : NodeId.cmp x y = .eq ↔ x = y := by
  cases x with
  | mk xc xk xo =>
    cases y with
    | mk yc yk yo =>
      unfold NodeId.cmp
      constructor
      · intro h
        split at h
        case _ hclk =>
          split at h
          case _ hstr =>
            simp_all [natCmp_eq_iff, strCmp_eq_iff]
          case _ o hstr =>
            exact absurd h hstr
        case _ o hclk =>
          exact absurd h hclk
      · intro h
        cases h
        simp [natCmp_self, strCmp_self]

theorem NodeId.ne_of_cmp_gt {x y : NodeId} (h : NodeId.cmp x y = .gt) : x ≠ y := by
  intro e
  rw [e, (NodeId.cmp_eq_iff y y).mpr rfl] at h
  cases h

theorem storeFind_insert_self (s : Store) (k : NodeId) (v : FugueBlock) :
    storeFind (storeInsert s k v) k = some v := by
  induction s with
  | nil => simp [storeInsert, storeFind]
  | cons kb rest ih =>
    obtain ⟨k', v'⟩ := kb
    unfold storeInsert
    cases h : NodeId.cmp k k' with
    | lt => simp [storeFind]
    | eq => simp [storeFind]
    | gt =>
      have hne : ¬ (k' = k) := fun e => (NodeId.ne_of_cmp_gt h) e.symm
      simp [storeFind, hne, ih]

theorem storeFind_insert_ne (s : Store) (k : NodeId) (v : FugueBlock) (k'' : NodeId)
    (hne : k'' ≠ k) : storeFind (storeInsert s k v) k'' = storeFind s k'' := by
  have hne' : ¬ (k = k'') := fun e => hne e.symm
  induction s with
  | nil => simp [storeInsert, storeFind, hne']
  | cons kb rest ih =>
    obtain ⟨k', v'⟩ := kb
    unfold storeInsert
    cases h : NodeId.cmp k k' with
    | lt => simp [storeFind, hne']
    | eq =>
      have : k = k' := (NodeId.cmp_eq_iff k k').mp h
      subst this
      simp [storeFind, hne']
    | gt =>
      by_cases hk : k' = k''
      · simp [storeFind, hk]
      · simp [storeFind, hk, ih]

theorem storeFind_erase_self (s : Store) (k : NodeId) :
    storeFind (storeErase s k) k = none := by
  induction s with
  | nil => simp [storeErase, storeFind]
  | cons kb rest ih =>
    obtain ⟨k', v'⟩ := kb
    unfold storeErase
    by_cases h : k' = k
    · simp [h, ih]
    · simp [h, storeFind, ih]

theorem storeFind_erase_ne (s : Store) (k k'' : NodeId) (hne : k'' ≠ k) :
    storeFind (storeErase s k) k'' = storeFind s k'' := by
  induction s with
  | nil => simp [storeErase]
  | cons kb rest ih =>
    obtain ⟨k', v'⟩ := kb
    by_cases h : k' = k
    · have hne2 : ¬ (k' = k'') := fun e => hne (e.symm.trans h)
      have hne3 : ¬ (k = k'') := fun e => hne e.symm
      simp [storeErase, storeFind, h, hne2, hne3, ih]
    · by_cases h2 : k' = k''
      · simp [storeErase, storeFind, h, h2, hne]
      · simp [storeErase, storeFind, h, h2, ih]

theorem storeContains_of_find (s : Store) (k : NodeId) (b : FugueBlock)
    (h : storeFind s k = some b) : storeContains s k = true := by
  simp [storeContains, h]

theorem mem_storeInsert (k : NodeId) (v : FugueBlock) (kb : NodeId × FugueBlock) :
    ∀ (s : Store), kb ∈ storeInsert s k v → kb = (k, v) ∨ kb ∈ s := by
  intro s
  induction s with
  | nil =>
    intro h
    simp only [storeInsert, List.mem_singleton] at h
    exact Or.inl h
  | cons kb' rest ih =>
    obtain ⟨k', v'⟩ := kb'
    intro h
    unfold storeInsert at h
    split at h
    · rcases List.mem_cons.mp h with h | h
      · exact Or.inl h
      · exact Or.inr h
    · rcases List.mem_cons.mp h with h | h
      · exact Or.inl h
      · exact Or.inr (List.mem_cons_of_mem _ h)
    · rcases List.mem_cons.mp h with h | h
      · exact Or.inr (h ▸ List.mem_cons_self _ _)
      · rcases ih h with h2 | h2
        · exact Or.inl h2
        · exact Or.inr (List.mem_cons_of_mem _ h2)

theorem mem_storeErase (k : NodeId) (kb : NodeId × FugueBlock) :
    ∀ (s : Store), kb ∈ storeErase s k → kb ∈ s := by
  intro s
  induction s with
  | nil => intro h; simp [storeErase] at h
  | cons kb' rest ih =>
    obtain ⟨k', v'⟩ := kb'
    intro h
    unfold storeErase at h
    by_cases hc : k' = k
    · rw [if_pos hc] at h
      exact List.mem_cons_of_mem _ (ih h)
    · rw [if_neg hc] at h
      rcases List.mem_cons.mp h with h | h
      · exact h ▸ List.mem_cons_self _ _
      · exact List.mem_cons_of_mem _ (ih h)

theorem storeFind_mem (k : NodeId) (b : FugueBlock) :
    ∀ (s : Store), storeFind s k = some b → (k, b) ∈ s := by
  intro s
  induction s with
  | nil => intro h; simp [storeFind] at h
  | cons kb' rest ih =>
    obtain ⟨k', v'⟩ := kb'
    intro h
    unfold storeFind at h
    by_cases hc : k' = k
    · rw [if_pos hc] at h
      injection h with h
      simp [hc, h]
    · rw [if_neg hc] at h
      exact List.mem_cons_of_mem _ (ih h)

theorem storeInsert_length (k : NodeId) (v : FugueBlock) :
    ∀ (s : Store), storeFind s k = none → (storeInsert s k v).length = s.length + 1 := by
  intro s
  induction s with
  | nil => intro _; simp [storeInsert]
  | cons kb rest ih =>
    obtain ⟨k', v'⟩ := kb
    intro h
    unfold storeFind at h
    unfold storeInsert
    cases hc : NodeId.cmp k k' with
    | lt => simp
    | eq =>
      have he : k = k' := (NodeId.cmp_eq_iff k k').mp hc
      rw [if_pos he.symm] at h
      cases h
    | gt =>
      by_cases hk : k' = k
      · rw [if_pos hk] at h
        cases h
      · rw [if_neg hk] at h
        simp [ih h]

theorem storeFind_eq_none_of_clock_gt (k : NodeId) :
    ∀ (s : Store), (∀ kb ∈ s, kb.1.clock < k.clock) → storeFind s k = none := by
  intro s
  induction s with
  | nil => intro _; simp [storeFind]
  | cons kb rest ih =>
    obtain ⟨k', v'⟩ := kb
    intro h
    unfold storeFind
    have hk : ¬ (k' = k) := by
      intro e
      subst e
      have := h (k', v') (by simp)
      simp at this
    rw [if_neg hk]
    exact ih fun kb hm => h kb (List.mem_cons_of_mem _ hm)

/-! ### Concrete scenarios

The divergence scenario: replica `c1` inserts "abc" as one block, replica
`c2` merges it, then `c1` deletes the middle character "b", splitting the
block into slices `(c1,1)="a"`, `(c1,2)="b"` (tombstoned) and
`(c1,3)="c"` — the right slice reuses the parent's identifier `(c1,3)`
with different text.  The replicas then exchange state pairwise. -/

/-- Replica c1 after inserting the single block "abc". -/
def divA2 : FugueText := ((FugueText.new "c1").insert 0 [['a'], ['b'], ['c']]).1

/-- Replica c2 after merging the unsplit block from c1. -/
def divB2 : FugueText := (FugueText.new "c2").merge divA2

/-- Replica c1 after deleting "b" (three-way split of the block). -/
def divA3 : FugueText := (divA2.delete 1 1).1

/-- Replica c1 after merging back from c2: both replicas have now seen all
operations. -/
def divA4 : FugueText := divA3.merge divB2

/-- Replica c2 after merging from the final state of c1. -/
def divB3 : FugueText := divB2.merge divA4

/-- Disjointness of the clock ranges `[id.clock − len + 1, id.clock]` of
distinct blocks on the same replica (spec §3, invariant 2). -/
def rangesDisjoint (s : Store) : Prop :=
  ∀ p1 ∈ s, ∀ p2 ∈ s, p1 ≠ p2 → p1.1.client_id = p2.1.client_id →
    p1.1.clock < p2.1.clock - p2.2.len + 1 ∨ p2.1.clock < p1.1.clock - p1.2.len + 1

/-- Total number of grapheme clusters of the visible document, computed
from the block store (the sum of `FugueBlock::len` over the non-deleted
blocks in document order).  Since the visible string is the concatenation
of the visible blocks' cluster lists, this is the extended grapheme
cluster count of `to_string()`. -/
def visibleGraphemeLen (s : Store) : Nat :=
  (documentOrder s).foldl
    (fun acc id =>
      match storeFind s id with
      | some b => if b.deleted then acc else acc + b.len
      | none => acc)
    0

/-- Engine after inserting the single grapheme cluster
"e + COMBINING ACUTE ACCENT" (scalar values U+0065, U+0301): one
user-perceived character made of two scalar values. -/
def combEngine : FugueText :=
  ((FugueText.new "c1").insert 0 [[Char.ofNat 101, Char.ofNat 769]]).1

/-- Engine with two blocks whose document order ("ab") differs from their
identifier order ("b" then "a"): insert "b", then insert "a" at
position 0. -/
def idOrderEngine : FugueText :=
  (((FugueText.new "c1").insert 0 [['b']]).1.insert 0 [['a']]).1

/-- Engine after inserting "a" and deleting it: the store holds the
tombstoned block `(c1, 1, 0)`. -/
def tombEngine : FugueText := (((FugueText.new "c1").insert 0 [['a']]).1.delete 0 1).1

/-- `tombEngine` after inserting the empty string. -/
def tombEngineAfterEmptyInsert : FugueText := (tombEngine.insert 0 []).1

/-- Engine holding "Hello" as a single five-grapheme block. -/
def helloEngine : FugueText :=
  ((FugueText.new "c1").insert 0 [['H'], ['e'], ['l'], ['l'], ['o']]).1

instance (s : Store) : Decidable (rangesDisjoint s) := by
  unfold rangesDisjoint; infer_instance

instance {a b : Type} [DecidableEq a] [DecidableEq b] : DecidableEq (Except a b) := fun x y => by
  cases x with
  | error e1 =>
    cases y with
    | error e2 =>
      exact if h : e1 = e2 then .isTrue (h ▸ rfl) else .isFalse fun he => h (Except.error.inj he)
    | ok v2 => exact .isFalse fun he => Except.noConfusion he
  | ok v1 =>
    cases y with
    | error e2 => exact .isFalse fun he => Except.noConfusion he
    | ok v2 =>
      exact if h : v1 = v2 then .isTrue (h ▸ rfl) else .isFalse fun he => h (Except.ok.inj he)

/-! ### Claim theorems (concrete refutations) -/

/-- C1: the claim states that merge is commutative, associative and
idempotent on reachable engines and that after `A.merge(B)` and
`B.merge(A)` the visible texts are byte-identical.  The code violates
this: in the divergence scenario both replicas have pairwise exchanged
all operations (`divA4 = A.merge(B)`, `divB3 = B.merge(A)` afterwards),
yet A reads "ac" while B reads "aabc" — the right slice of the split
reused the parent's identifier `(c1,3,0)` with different text, so B keeps
the unsplit "abc" next to the cloned-in left slice "a". -/
theorem C1_convergence_violated :
    divA4.to_string = ['a', 'c'] ∧ divB3.to_string = ['a', 'a', 'b', 'c'] ∧
    divA4.to_string ≠ divB3.to_string := by decide

/-- C2: the claim states that `length()` equals the extended grapheme
cluster count of `to_string()` in every reachable state.  The code
violates it: `FugueText::len` returns `rope.len_chars()`, the number of
scalar values.  After inserting the single cluster "e + COMBINING ACUTE
ACCENT", `to_string()` is that one cluster (grapheme count 1, as
`visibleGraphemeLen` computes from the store), but `len()` is 2. -/
theorem C2_length_is_scalar_count :
    combEngine.len = 2 ∧ visibleGraphemeLen combEngine.blocks = 1 ∧
    combEngine.to_string = [Char.ofNat 101, Char.ofNat 769] ∧
    combEngine.len ≠ visibleGraphemeLen combEngine.blocks := by decide

/-- C5: the claim states that serialize-then-deserialize yields an engine
indistinguishable in `to_string()`.  The code violates it: `Deserialize`
rebuilds the rope by concatenating non-deleted blocks in identifier
order, not document order.  `idOrderEngine` reads "ab" but its round trip
reads "ba". -/
theorem C5_roundtrip_changes_to_string :
    idOrderEngine.to_string = ['a', 'b'] ∧
    (FugueText.deserialize idOrderEngine.serialize).to_string = ['b', 'a'] ∧
    (FugueText.deserialize idOrderEngine.serialize).to_string ≠ idOrderEngine.to_string := by
  decide

/-- C6: the claim states that in every reachable state the clock ranges of
distinct same-replica blocks are pairwise disjoint.  The code violates
it: the reachable state `divB3` holds both the left slice `(c1,1,0)` of
length 1 (range `[1,1]`) and the unsplit parent `(c1,3,0)` of length 3
(range `[1,3]`), which overlap. -/
theorem C6_clock_ranges_overlap : ¬ rangesDisjoint divB3.blocks := by decide

/-- C7: the claim states that once a block's `deleted` flag is true no
operation resets it and the tombstone is never removed from the store.
The code violates it: inserting the empty string allocates zero clock
values, so the new block's id collides with the tombstone `(c1,1,0)` and
`BTreeMap::insert` replaces it — the tombstoned block is removed and the
entry's `deleted` flag is reset to `false`. -/
theorem C7_tombstone_overwritten :
    (storeFind tombEngine.blocks ⟨"c1", 1, 0⟩).map FugueBlock.deleted = some true ∧
    tombEngineAfterEmptyInsert = (tombEngine.insert 0 []).1 ∧
    (storeFind tombEngineAfterEmptyInsert.blocks ⟨"c1", 1, 0⟩).map FugueBlock.deleted
      = some false ∧
    (storeFind tombEngineAfterEmptyInsert.blocks ⟨"c1", 1, 0⟩).map FugueBlock.text
      = some [] := by decide

/-- C8 counterexample: the claim states that `delete` succeeds whenever
`position + length ≤ document_length`.  On `helloEngine` (length 5) the
in-bounds call `delete(1, 0)` fails with `InvalidBlockSplit`: the
zero-length range strictly inside the block produces equal split offsets,
which the split validation rejects. -/
theorem C8_inbounds_delete_fails :
    (helloEngine.delete 1 0).2 = .error (.InvalidBlockSplit ⟨"c1", 5, 0⟩ 1 1 5) ∧
    1 + 0 ≤ helloEngine.len := by decide

/-! ### C3: the three-way split on delete -/

/-- Following the spec's words (§4.6): the first clock of the parent's
range, `parent_start_clock`. -/
def specStartClock (blk : FugueBlock) : Nat := blk.id.clock - blk.len + 1

/-- Following the spec's words (§4.6): the id of the left slice,
`(replica, parent_start_clock + a − 1, 0)`. -/
def specLeftId (blk : FugueBlock) (a : Nat) : NodeId :=
  ⟨blk.id.client_id, specStartClock blk + a - 1, 0⟩

/-- Following the spec's words (§4.6): the left slice — text `[0, a)`,
the parent's origins, not deleted. -/
def specLeftSlice (blk : FugueBlock) (a : Nat) : FugueBlock :=
  ⟨specLeftId blk a, blk.text.take a, blk.left_origin, blk.right_origin, false⟩

/-- Following the spec's words (§4.6): the id of the middle slice,
`(replica, parent_start_clock + b − 1, 0)`. -/
def specMiddleId (blk : FugueBlock) (b : Nat) : NodeId :=
  ⟨blk.id.client_id, specStartClock blk + b - 1, 0⟩

/-- Following the spec's words (§4.6): the middle slice — text `[a, b)`,
the parent's origins, tombstoned. -/
def specMiddleSlice (blk : FugueBlock) (a b : Nat) : FugueBlock :=
  ⟨specMiddleId blk b, (blk.text.drop a).take (b - a), blk.left_origin, blk.right_origin, true⟩

/-- Following the spec's words (§4.6): the id of the right slice,
`(replica, parent_start_clock + ℓ − 1, 0)`. -/
def specRightId (blk : FugueBlock) : NodeId :=
  ⟨blk.id.client_id, specStartClock blk + blk.len - 1, 0⟩

/-- Following the spec's words (§4.6): the right slice — text `[b, ℓ)`,
the parent's origins, not deleted. -/
def specRightSlice (blk : FugueBlock) (b : Nat) : FugueBlock :=
  ⟨specRightId blk, blk.text.drop b, blk.left_origin, blk.right_origin, false⟩

/-- C3: the per-block deletion step (the body of `delete`'s second pass,
run on the block's overlap offsets `[a, b)`) replaces the parent block as
the spec describes: a left slice exactly when `a > 0`, always a
tombstoned middle slice whose id is returned, a right slice exactly when
`b < ℓ`, all slices carrying the parent's origins; the parent block
itself is gone, and nothing else changes.  Hypotheses: the parent is a
visible block of the store with `a < b ≤ ℓ`, block ids carry `offset = 0`
and satisfy the data-model invariant `ℓ ≤ id.clock`. -/
theorem C3_split_block_for_deletion (s : Store) (ids : List NodeId) (blk : FugueBlock)
    (bs a b : Nat)
    (hfind : storeFind s blk.id = some blk)
    (hvis : blk.deleted = false)
    (hoff : blk.id.offset = 0)
    (hab : a < b) (hb : b ≤ blk.len)
    (hclk : blk.len ≤ blk.id.clock) :
    (deleteSecondPass s ids [⟨blk.id, blk, bs, a, b⟩]).2.2 = none ∧
    (deleteSecondPass s ids [⟨blk.id, blk, bs, a, b⟩]).2.1 = ids ++ [specMiddleId blk b] ∧
    storeFind (deleteSecondPass s ids [⟨blk.id, blk, bs, a, b⟩]).1 (specMiddleId blk b)
      = some (specMiddleSlice blk a b) ∧
    (0 < a →
      storeFind (deleteSecondPass s ids [⟨blk.id, blk, bs, a, b⟩]).1 (specLeftId blk a)
        = some (specLeftSlice blk a)) ∧
    (b < blk.len →
      storeFind (deleteSecondPass s ids [⟨blk.id, blk, bs, a, b⟩]).1 (specRightId blk)
        = some (specRightSlice blk b)) ∧
    storeFind (deleteSecondPass s ids [⟨blk.id, blk, bs, a, b⟩]).1 blk.id ≠ some blk ∧
    (∀ k, k ≠ specLeftId blk a → k ≠ specMiddleId blk b → k ≠ specRightId blk →
      k ≠ blk.id → storeFind (deleteSecondPass s ids [⟨blk.id, blk, bs, a, b⟩]).1 k
        = storeFind s k) := by
  obtain ⟨⟨bc, bk, bo⟩, btext, blo, bro, bdel⟩ := blk
  simp only [FugueBlock.len] at hb hclk
  simp only at hvis hoff hfind
  subst hvis
  subst hoff
  have hlen1 : 1 ≤ btext.length := by omega
  simp only [specLeftId, specLeftSlice, specMiddleId, specMiddleSlice, specRightId,
    specRightSlice, specStartClock, FugueBlock.len]
  by_cases hsplit : a > 0 ∨ b < btext.length
  · -- split path of the second pass
    have hval : ¬ (a ≥ btext.length ∨ b > btext.length ∨ a ≥ b) := by omega
    have hcont : ¬ ¬ storeContains s ⟨bc, bk, 0⟩ = true := by
      simp [storeContains_of_find s _ _ hfind]
    have hstep : deleteSecondPass s ids
        [⟨⟨bc, bk, 0⟩, ⟨⟨bc, bk, 0⟩, btext, blo, bro, false⟩, bs, a, b⟩] =
        match splitBlockForDeletion s ⟨bc, bk, 0⟩ ⟨⟨bc, bk, 0⟩, btext, blo, bro, false⟩ a b ids with
        | .error err => (s, ids, some err)
        | .ok si => (si.1, si.2, none) := by
      unfold deleteSecondPass
      rw [if_pos (by simpa using hsplit)]
      cases splitBlockForDeletion s ⟨bc, bk, 0⟩ ⟨⟨bc, bk, 0⟩, btext, blo, bro, false⟩ a b ids with
      | error err => rfl
      | ok si => rfl
    have htakeE : 0 < a → (btext.take a).isEmpty = false := by
      intro ha
      cases hcase : btext.take a with
      | nil =>
        have h0 : (btext.take a).length = 0 := by rw [hcase]; rfl
        rw [List.length_take] at h0
        omega
      | cons x xs => rfl
    have hdropE : b < btext.length → (btext.drop b).isEmpty = false := by
      intro hbl
      cases hcase : btext.drop b with
      | nil =>
        have h0 : (btext.drop b).length = 0 := by rw [hcase]; rfl
        rw [List.length_drop] at h0
        omega
      | cons x xs => rfl
    rcases Nat.eq_zero_or_pos a with ha | ha
    · -- a = 0, so b < btext.length: slices are middle and right
      subst ha
      have hbl : b < btext.length := by omega
      have hsp : splitBlockForDeletion s ⟨bc, bk, 0⟩ ⟨⟨bc, bk, 0⟩, btext, blo, bro, false⟩ 0 b ids =
          .ok (storeInsert
                 (storeInsert (storeErase s ⟨bc, bk, 0⟩)
                   ⟨bc, bk - btext.length + 1 + b - 1, 0⟩
                   ⟨⟨bc, bk - btext.length + 1 + b - 1, 0⟩, (btext.drop 0).take (b - 0),
                     blo, bro, true⟩)
                 ⟨bc, bk - btext.length + 1 + btext.length - 1, 0⟩
                 ⟨⟨bc, bk - btext.length + 1 + btext.length - 1, 0⟩, btext.drop b,
                   blo, bro, false⟩,
               ids ++ [⟨bc, bk - btext.length + 1 + b - 1, 0⟩]) := by
        unfold splitBlockForDeletion
        rw [if_neg (by simpa using hval), if_neg hcont]
        simp [hdropE hbl, List.isEmpty_nil]
      rw [hstep, hsp]
      have hMR : (⟨bc, bk - btext.length + 1 + b - 1, 0⟩ : NodeId) ≠
          ⟨bc, bk - btext.length + 1 + btext.length - 1, 0⟩ := by
        intro h
        have h2 := congrArg NodeId.clock h
        simp only at h2
        omega
      have hKR : (⟨bc, bk, 0⟩ : NodeId) = ⟨bc, bk - btext.length + 1 + btext.length - 1, 0⟩ := by
        rw [show bk - btext.length + 1 + btext.length - 1 = bk from by omega]
      refine ⟨rfl, rfl, ?_, ?_, ?_, ?_, ?_⟩
      · rw [storeFind_insert_ne _ _ _ _ hMR, storeFind_insert_self]
      · intro h
        omega
      · intro _
        rw [storeFind_insert_self]
      · rw [hKR, storeFind_insert_self]
        intro h
        have h2 := Option.some.inj h
        have h3 := congrArg FugueBlock.text h2
        simp only at h3
        have h4 := congrArg List.length h3
        rw [List.length_drop] at h4
        omega
      · intro k _ hk2 hk3 hk4
        rw [storeFind_insert_ne _ _ _ _ hk3, storeFind_insert_ne _ _ _ _ hk2,
          storeFind_erase_ne _ _ _ hk4]
    · rcases Nat.lt_or_ge b btext.length with hbl | hbl
      · -- 0 < a and b < btext.length: all three slices
        have hsp : splitBlockForDeletion s ⟨bc, bk, 0⟩
            ⟨⟨bc, bk, 0⟩, btext, blo, bro, false⟩ a b ids =
            .ok (storeInsert
                   (storeInsert
                     (storeInsert (storeErase s ⟨bc, bk, 0⟩)
                       ⟨bc, bk - btext.length + 1 + a - 1, 0⟩
                       ⟨⟨bc, bk - btext.length + 1 + a - 1, 0⟩, btext.take a, blo, bro, false⟩)
                     ⟨bc, bk - btext.length + 1 + b - 1, 0⟩
                     ⟨⟨bc, bk - btext.length + 1 + b - 1, 0⟩, (btext.drop a).take (b - a),
                       blo, bro, true⟩)
                   ⟨bc, bk - btext.length + 1 + btext.length - 1, 0⟩
                   ⟨⟨bc, bk - btext.length + 1 + btext.length - 1, 0⟩, btext.drop b,
                     blo, bro, false⟩,
                 ids ++ [⟨bc, bk - btext.length + 1 + b - 1, 0⟩]) := by
          unfold splitBlockForDeletion
          rw [if_neg (by simpa using hval), if_neg hcont]
          simp [htakeE ha, hdropE hbl]
        rw [hstep, hsp]
        have hLM : (⟨bc, bk - btext.length + 1 + a - 1, 0⟩ : NodeId) ≠
            ⟨bc, bk - btext.length + 1 + b - 1, 0⟩ := by
          intro h
          have h2 := congrArg NodeId.clock h
          simp only at h2
          omega
        have hLR : (⟨bc, bk - btext.length + 1 + a - 1, 0⟩ : NodeId) ≠
            ⟨bc, bk - btext.length + 1 + btext.length - 1, 0⟩ := by
          intro h
          have h2 := congrArg NodeId.clock h
          simp only at h2
          omega
        have hMR : (⟨bc, bk - btext.length + 1 + b - 1, 0⟩ : NodeId) ≠
            ⟨bc, bk - btext.length + 1 + btext.length - 1, 0⟩ := by
          intro h
          have h2 := congrArg NodeId.clock h
          simp only at h2
          omega
        have hKR : (⟨bc, bk, 0⟩ : NodeId) = ⟨bc, bk - btext.length + 1 + btext.length - 1, 0⟩ := by
          rw [show bk - btext.length + 1 + btext.length - 1 = bk from by omega]
        refine ⟨rfl, rfl, ?_, ?_, ?_, ?_, ?_⟩
        · rw [storeFind_insert_ne _ _ _ _ hMR, storeFind_insert_self]
        · intro _
          rw [storeFind_insert_ne _ _ _ _ hLR, storeFind_insert_ne _ _ _ _ hLM,
            storeFind_insert_self]
        · intro _
          rw [storeFind_insert_self]
        · rw [hKR, storeFind_insert_self]
          intro h
          have h2 := Option.some.inj h
          have h3 := congrArg FugueBlock.text h2
          simp only at h3
          have h4 := congrArg List.length h3
          rw [List.length_drop] at h4
          omega
        · intro k hk1 hk2 hk3 hk4
          rw [storeFind_insert_ne _ _ _ _ hk3, storeFind_insert_ne _ _ _ _ hk2,
            storeFind_insert_ne _ _ _ _ hk1, storeFind_erase_ne _ _ _ hk4]
      · -- 0 < a and b = btext.length: left and middle slices only
        have hbeq : b = btext.length := by omega
        have hsp : splitBlockForDeletion s ⟨bc, bk, 0⟩
            ⟨⟨bc, bk, 0⟩, btext, blo, bro, false⟩ a b ids =
            .ok (storeInsert
                   (storeInsert (storeErase s ⟨bc, bk, 0⟩)
                     ⟨bc, bk - btext.length + 1 + a - 1, 0⟩
                     ⟨⟨bc, bk - btext.length + 1 + a - 1, 0⟩, btext.take a, blo, bro, false⟩)
                   ⟨bc, bk - btext.length + 1 + b - 1, 0⟩
                   ⟨⟨bc, bk - btext.length + 1 + b - 1, 0⟩, (btext.drop a).take (b - a),
                     blo, bro, true⟩,
                 ids ++ [⟨bc, bk - btext.length + 1 + b - 1, 0⟩]) := by
          unfold splitBlockForDeletion
          rw [if_neg (by simpa using hval), if_neg hcont]
          have hdropNil : btext.drop b = [] := by
            rw [hbeq]
            exact List.drop_length btext
          simp [htakeE ha, hdropNil]
        rw [hstep, hsp]
        have hLM : (⟨bc, bk - btext.length + 1 + a - 1, 0⟩ : NodeId) ≠
            ⟨bc, bk - btext.length + 1 + b - 1, 0⟩ := by
          intro h
          have h2 := congrArg NodeId.clock h
          simp only at h2
          omega
        have hKM : (⟨bc, bk, 0⟩ : NodeId) = ⟨bc, bk - btext.length + 1 + b - 1, 0⟩ := by
          rw [show bk - btext.length + 1 + b - 1 = bk from by omega]
        refine ⟨rfl, rfl, ?_, ?_, ?_, ?_, ?_⟩
        · rw [storeFind_insert_self]
        · intro _
          rw [storeFind_insert_ne _ _ _ _ hLM, storeFind_insert_self]
        · intro h
          omega
        · rw [hKM, storeFind_insert_self]
          intro h
          have h2 := Option.some.inj h
          have h3 := congrArg FugueBlock.deleted h2
          simp only at h3
          cases h3
        · intro k hk1 hk2 _ hk4
          rw [storeFind_insert_ne _ _ _ _ hk2, storeFind_insert_ne _ _ _ _ hk1,
            storeFind_erase_ne _ _ _ hk4]
  · -- mark path: a = 0 and b = btext.length (whole block tombstoned in place)
    have ha : a = 0 := by omega
    have hbeq : b = btext.length := by omega
    subst ha
    have hres : deleteSecondPass s ids
        [⟨⟨bc, bk, 0⟩, ⟨⟨bc, bk, 0⟩, btext, blo, bro, false⟩, bs, 0, b⟩] =
        (storeInsert s ⟨bc, bk, 0⟩
           (FugueBlock.mark_deleted ⟨⟨bc, bk, 0⟩, btext, blo, bro, false⟩),
         ids ++ [⟨bc, bk, 0⟩], none) := by
      unfold deleteSecondPass
      rw [if_neg (by simpa using hsplit)]
      rw [hfind]
      rfl
    rw [hres]
    have hKM : (⟨bc, bk, 0⟩ : NodeId) = ⟨bc, bk - btext.length + 1 + b - 1, 0⟩ := by
      rw [show bk - btext.length + 1 + b - 1 = bk from by omega]
    refine ⟨rfl, by rw [hKM], ?_, ?_, ?_, ?_, ?_⟩
    · rw [← hKM, storeFind_insert_self]
      rw [List.drop_zero, Nat.sub_zero, hbeq, List.take_length]
      rfl
    · intro h
      omega
    · intro h
      omega
    · rw [storeFind_insert_self]
      intro h
      have h2 := Option.some.inj h
      have h3 := congrArg FugueBlock.deleted h2
      simp only [FugueBlock.mark_deleted] at h3
      cases h3
    · intro k _ hk2 _ _
      exact storeFind_insert_ne _ _ _ _ (by rw [hKM]; exact hk2)

/-- The single "Hello" block of `helloEngine`. -/
def helloBlock : FugueBlock :=
  ⟨⟨"c1", 5, 0⟩, [['H'], ['e'], ['l'], ['l'], ['o']], none, none, false⟩

/-- Witness for C3: the hypotheses hold at a concrete input (the "Hello"
block with overlap offsets `[1, 3)`) and the middle slice is produced as
stated. -/
theorem C3_split_block_for_deletion_witness :
    storeFind helloEngine.blocks helloBlock.id = some helloBlock ∧
    storeFind (deleteSecondPass helloEngine.blocks [] [⟨helloBlock.id, helloBlock, 0, 1, 3⟩]).1
      (specMiddleId helloBlock 3) = some (specMiddleSlice helloBlock 1 3) :=
  ⟨by decide,
   (C3_split_block_for_deletion helloEngine.blocks [] helloBlock 0 1 3 (by decide) (by decide)
     (by decide) (by decide) (by decide) (by decide)).2.2.1⟩

/-! ### C4: position ↔ identifier mapping -/

theorem findBlockForNodeId_eq_none (nid : NodeId) :
    ∀ (s : Store), (∀ kb ∈ s, ¬ blockMatches kb.1 kb.2 nid) →
      findBlockForNodeId s nid = none := by
  intro s
  induction s with
  | nil => intro _; rfl
  | cons kb rest ih =>
    obtain ⟨k, b⟩ := kb
    intro h
    unfold findBlockForNodeId
    rw [if_neg (h (k, b) (by simp))]
    exact ih fun kb hm => h kb (List.mem_cons_of_mem _ hm)

theorem findBlockForNodeId_eq_unique (nid k0 : NodeId) (b0 : FugueBlock)
    (hmatch : blockMatches k0 b0 nid) :
    ∀ (s : Store), (k0, b0) ∈ s →
      (∀ kb ∈ s, blockMatches kb.1 kb.2 nid → kb = (k0, b0)) →
      findBlockForNodeId s nid = some k0 := by
  intro s
  induction s with
  | nil => intro hm _; simp at hm
  | cons kb rest ih =>
    obtain ⟨k, b⟩ := kb
    intro hm huniq
    unfold findBlockForNodeId
    by_cases hb : blockMatches k b nid
    · rw [if_pos hb]
      have heq := huniq (k, b) (by simp) hb
      have h1 : k = k0 := congrArg Prod.fst heq
      rw [h1]
    · rw [if_neg hb]
      have hm2 : (k0, b0) ∈ rest := by
        rcases List.mem_cons.mp hm with h | h
        · have h1 : k0 = k := congrArg Prod.fst h
          have h2 : b0 = b := congrArg Prod.snd h
          rw [h1, h2] at hmatch
          exact absurd hmatch hb
        · exact h
      exact ih hm2 fun kb hmem hma => huniq kb (List.mem_cons_of_mem _ hmem) hma

/-- The engine of scenario S6 after `insert(0, "Hello")` on replica R1. -/
def s6Engine1 : FugueText :=
  ((FugueText.new "R1").insert 0 [['H'], ['e'], ['l'], ['l'], ['o']]).1

/-- `s6Engine1` after `insert(0, "!!")`. -/
def s6Engine2 : FugueText := (s6Engine1.insert 0 [['!'], ['!']]).1

/-- The stable anchor of scenario S6: `get_node_id_at_position(2)`. -/
def s6X : NodeId := ⟨"R1", 3, 0⟩

/-- The "Hello" block as held by `s6Engine2`. -/
def s6HelloBlock : FugueBlock :=
  ⟨⟨"R1", 5, 0⟩, [['H'], ['e'], ['l'], ['l'], ['o']], none, none, false⟩

/-- C4: `get_position_of_node_id` resolves the block whose clock range on
`id.replica` contains `id.clock` — returning `none` when no block
contains it, `none` when the (unique) containing block is tombstoned, and
`block_start_position + (id.clock − block_start_clock)` otherwise; every
identifier returned by `get_node_id_at_position` has `offset = 0`; and in
scenario S6 (`insert(0,"Hello")`, `x := get_node_id_at_position(2)`,
`insert(0,"!!")`), `get_position_of_node_id(x)` returns 4. -/
theorem C4_get_position_of_node_id :
    (∀ (e : FugueText) (nid : NodeId),
      (∀ kb ∈ e.blocks, ¬ blockMatches kb.1 kb.2 nid) →
      e.get_position_of_node_id nid = none) ∧
    (∀ (e : FugueText) (nid k0 : NodeId) (b0 : FugueBlock),
      storeFind e.blocks k0 = some b0 →
      blockMatches k0 b0 nid →
      (∀ kb ∈ e.blocks, blockMatches kb.1 kb.2 nid → kb = (k0, b0)) →
      (b0.deleted = true → e.get_position_of_node_id nid = none) ∧
      (∀ st, b0.deleted = false → lookupPos (visibleWithPos e.blocks) k0 = some st →
        e.get_position_of_node_id nid = some (st + (nid.clock - startClockOf k0 b0.len)))) ∧
    (∀ (e : FugueText) (p : Nat) (nid : NodeId),
      e.get_node_id_at_position p = .ok nid → nid.offset = 0) ∧
    (s6Engine1.get_node_id_at_position 2 = .ok s6X ∧
      s6Engine2.get_position_of_node_id s6X = some 4) := by
  refine ⟨?_, ?_, ?_, by decide, by decide⟩
  · intro e nid hnone
    unfold FugueText.get_position_of_node_id
    rw [findBlockForNodeId_eq_none nid e.blocks hnone]
  · intro e nid k0 b0 hfind0 hmatch huniq
    have hfb : findBlockForNodeId e.blocks nid = some k0 :=
      findBlockForNodeId_eq_unique nid k0 b0 hmatch e.blocks (storeFind_mem _ _ _ hfind0) huniq
    have hofflt : ¬ (nid.clock - startClockOf k0 b0.len ≥ b0.len) := by
      obtain ⟨-, hlen0, hlow, hhigh⟩ := hmatch
      unfold startClockOf
      omega
    constructor
    · intro hdel
      unfold FugueText.get_position_of_node_id
      simp [hfb, hfind0, hdel]
    · intro st hdel hpos
      unfold FugueText.get_position_of_node_id
      simp [hfb, hfind0, hdel, hpos, hofflt]
  · intro e p nid h
    unfold FugueText.get_node_id_at_position at h
    dsimp only [] at h
    split at h
    · simp at h
    · split at h
      · simp at h
      · split at h
        · split at h
          · have h2 := Except.ok.inj h
            rw [← h2]
          · simp at h
        · simp at h

/-- Witness for C4: the unique-containing-block hypotheses hold at the
concrete S6 state and the returned position is 4. -/
theorem C4_get_position_of_node_id_witness :
    s6Engine2.get_position_of_node_id s6X = some 4 := by
  have h := (C4_get_position_of_node_id.2.1 s6Engine2 s6X ⟨"R1", 5, 0⟩ s6HelloBlock
    (by decide) (by decide) (by decide)).2 2 (by decide) (by decide)
  exact h.trans (by decide)

/-! ### C8 and C9: error behaviour of delete -/

theorem splitBlockForDeletion_error_shape (s : Store) (origId : NodeId)
    (origBlock : FugueBlock) (os oe : Nat) (ids : List NodeId) (err : TextError)
    (h : splitBlockForDeletion s origId origBlock os oe ids = .error err) :
    err = .InvalidBlockSplit origId os oe origBlock.text.length := by
  unfold splitBlockForDeletion at h
  dsimp only [] at h
  split at h
  · exact (Except.error.inj h).symm
  · split at h
    · simp at h
    · simp at h

theorem splitBlockForDeletion_ok (s : Store) (origId : NodeId)
    (origBlock : FugueBlock) (os oe : Nat) (ids : List NodeId)
    (hval : ¬ (os ≥ origBlock.text.length ∨ oe > origBlock.text.length ∨ os ≥ oe)) :
    ∃ res, splitBlockForDeletion s origId origBlock os oe ids = .ok res := by
  unfold splitBlockForDeletion
  dsimp only []
  rw [if_neg hval]
  split
  · exact ⟨_, rfl⟩
  · exact ⟨_, rfl⟩

theorem deleteSecondPass_no_error :
    ∀ (entries : List SplitEntry),
      (∀ en ∈ entries, (en.offStart > 0 ∨ en.offEnd < en.origBlock.len) →
        en.offStart < en.origBlock.len ∧ en.offEnd ≤ en.origBlock.len ∧
          en.offStart < en.offEnd) →
      ∀ (s : Store) (ids : List NodeId), (deleteSecondPass s ids entries).2.2 = none := by
  intro entries
  induction entries with
  | nil => intro _ s ids; rfl
  | cons en rest ih =>
    intro hq s ids
    unfold deleteSecondPass
    by_cases hc : en.offStart > 0 ∨ en.offEnd < en.origBlock.len
    · rw [if_pos hc]
      have hv := hq en (by simp) hc
      have hval : ¬ (en.offStart ≥ en.origBlock.text.length ∨
          en.offEnd > en.origBlock.text.length ∨ en.offStart ≥ en.offEnd) := by
        simp only [FugueBlock.len] at hv
        omega
      obtain ⟨res, hres⟩ := splitBlockForDeletion_ok s en.origId en.origBlock
        en.offStart en.offEnd ids hval
      rw [hres]
      exact ih (fun x hx => hq x (List.mem_cons_of_mem _ hx)) res.1 res.2
    · rw [if_neg hc]
      split
      · exact ih (fun x hx => hq x (List.mem_cons_of_mem _ hx)) _ _
      · exact ih (fun x hx => hq x (List.mem_cons_of_mem _ hx)) _ _

theorem deleteFirstPass_entries_valid (p l : Nat) (hl : 1 ≤ l) :
    ∀ (s : Store) (cur : Nat), ∀ en ∈ deleteFirstPass p l s cur,
      (en.offStart > 0 ∨ en.offEnd < en.origBlock.len) →
        en.offStart < en.origBlock.len ∧ en.offEnd ≤ en.origBlock.len ∧
          en.offStart < en.offEnd := by
  intro s
  induction s with
  | nil => intro cur en hm; simp [deleteFirstPass] at hm
  | cons kb rest ih =>
    obtain ⟨k, b⟩ := kb
    intro cur en hm
    unfold deleteFirstPass at hm
    split at hm
    · exact ih cur en hm
    · rcases List.mem_append.mp hm with hm | hm
      · split at hm
        · next hcond =>
          simp only [List.mem_singleton] at hm
          subst hm
          simp only [FugueBlock.len] at hcond ⊢
          intro hbranch
          rcases Nat.eq_zero_or_pos b.text.length with h0 | h0
          · exfalso
            rcases hbranch with hb1 | hb2
            · omega
            · omega
          · omega
        · simp at hm
      · exact ih (cur + b.len) en hm

theorem deleteFirstPass_zero_tail (p : Nat) :
    ∀ (s : Store) (cur : Nat), p ≤ cur → deleteFirstPass p 0 s cur = [] := by
  intro s
  induction s with
  | nil => intro cur _; rfl
  | cons kb rest ih =>
    obtain ⟨k, b⟩ := kb
    intro cur hcur
    unfold deleteFirstPass
    split
    · exact ih cur hcur
    · dsimp only []
      rw [if_neg (by omega)]
      rw [ih (cur + b.len) (by omega)]
      rfl

theorem deleteFirstPass_zero_short (p : Nat) :
    ∀ (s : Store) (cur : Nat), (deleteFirstPass p 0 s cur).length ≤ 1 := by
  intro s
  induction s with
  | nil => intro cur; simp [deleteFirstPass]
  | cons kb rest ih =>
    obtain ⟨k, b⟩ := kb
    intro cur
    unfold deleteFirstPass
    split
    · exact ih cur
    · dsimp only []
      by_cases hcond : cur < p + 0 ∧ cur + b.len > p
      · rw [if_pos hcond]
        rw [deleteFirstPass_zero_tail p rest (cur + b.len) (by omega)]
        simp
      · rw [if_neg hcond]
        simpa using ih (cur + b.len)

theorem deleteSecondPass_single_error (s : Store) (ids : List NodeId) (en : SplitEntry)
    (s' : Store) (ids' : List NodeId) (err : TextError)
    (h : deleteSecondPass s ids [en] = (s', ids', some err)) : s' = s ∧ ids' = ids := by
  unfold deleteSecondPass at h
  split at h
  · split at h
    · simp only [Prod.mk.injEq] at h
      exact ⟨h.1.symm, h.2.1.symm⟩
    · simp [deleteSecondPass] at h
  · split at h
    · simp [deleteSecondPass] at h
    · simp [deleteSecondPass] at h

theorem deleteSecondPass_error_shape :
    ∀ (entries : List SplitEntry) (s : Store) (ids : List NodeId) (s' : Store)
      (ids' : List NodeId) (err : TextError),
      deleteSecondPass s ids entries = (s', ids', some err) →
      ∃ bid a b l, err = .InvalidBlockSplit bid a b l := by
  intro entries
  induction entries with
  | nil =>
    intro s ids s' ids' err h
    simp only [deleteSecondPass, Prod.mk.injEq] at h
    exact absurd h.2.2 (by simp)
  | cons en rest ih =>
    intro s ids s' ids' err h
    unfold deleteSecondPass at h
    split at h
    · split at h
      · next err0 heq =>
        have hform := splitBlockForDeletion_error_shape _ _ _ _ _ _ _ heq
        simp only [Prod.mk.injEq] at h
        exact ⟨_, _, _, _, (Option.some.inj h.2.2) ▸ hform⟩
      · exact ih _ _ _ _ _ h
    · split at h
      · exact ih _ _ _ _ _ h
      · exact ih _ _ _ _ _ h

/-- C8 (amended): `delete` fails with `RangeOutOfBounds` exactly when
`position + length` exceeds the document length, and for every in-bounds
range of length at least one, `delete` succeeds and returns the list of
tombstoned middle-block ids.  (The original claim also promised success
for in-bounds zero-length deletes; `C8_inbounds_delete_fails` refutes
that.) -/
theorem C8_delete_error_behaviour (e : FugueText) (p l : Nat) :
    ((∃ st en ln, (e.delete p l).2 = .error (.RangeOutOfBounds st en ln)) ↔ p + l > e.len) ∧
    (1 ≤ l → p + l ≤ e.len → ∃ ids, (e.delete p l).2 = .ok ids) := by
  constructor
  · constructor
    · rintro ⟨st, en, ln, h⟩
      by_contra hgt
      unfold FugueText.delete at h
      dsimp only [] at h
      rw [if_neg hgt] at h
      split at h
      · rename_i s0 ids0 err0 heq
        obtain ⟨bid, aa, bb, ll, hform⟩ := deleteSecondPass_error_shape _ _ _ _ _ _ heq
        rw [hform] at h
        simp at h
      · split at h <;> simp at h
    · intro hgt
      unfold FugueText.delete
      dsimp only []
      rw [if_pos hgt]
      exact ⟨p, p + l, e.len, rfl⟩
  · intro hl hle
    have hq := deleteFirstPass_entries_valid p l hl e.blocks 0
    have hno := deleteSecondPass_no_error _ hq e.blocks []
    unfold FugueText.delete
    dsimp only []
    rw [if_neg (by omega)]
    rcases hE : deleteSecondPass e.blocks [] (deleteFirstPass p l e.blocks 0)
      with ⟨s', ids', errOpt⟩
    rw [hE] at hno
    dsimp only [] at hno
    subst hno
    refine ⟨ids', ?_⟩
    dsimp only []
    split
    · rfl
    · rfl

/-- Witness for C8 (amended): the in-bounds length-5 delete on
`helloEngine` succeeds. -/
theorem C8_delete_error_behaviour_witness :
    (1 ≤ 5 ∧ 0 + 5 ≤ helloEngine.len) ∧
      ∃ ids, (helloEngine.delete 0 5).2 = .ok ids :=
  ⟨⟨by decide, by decide⟩,
   (C8_delete_error_behaviour helloEngine 0 5).2 (by decide) (by decide)⟩

/-- C9: any call to `insert`, `delete` or `merge` that returns an error
leaves the engine — block store, rope text and Lamport clock — exactly as
it was.  `insert` errors only at the entry bounds check; a `delete` error
is either the entry bounds check or an `InvalidBlockSplit` raised on the
single overlapped block of a zero-length range, which is rejected by the
split validation before any mutation; `merge` never returns an error. -/
theorem C9_errors_do_not_mutate :
    (∀ (e : FugueText) (p : Nat) (t : List (List Char)) (err : TextError),
      (e.insert p t).2 = .error err → (e.insert p t).1 = e) ∧
    (∀ (e : FugueText) (p l : Nat) (err : TextError),
      (e.delete p l).2 = .error err → (e.delete p l).1 = e) ∧
    (∀ (a b : FugueText) (err : TextError),
      (a.mergeOp b).2 = .error err → (a.mergeOp b).1 = a) := by
  refine ⟨?_, ?_, ?_⟩
  · intro e p t err h
    by_cases hc : p > e.len
    · unfold FugueText.insert
      dsimp only []
      rw [if_pos hc]
    · unfold FugueText.insert at h
      dsimp only [] at h
      rw [if_neg hc] at h
      simp at h
  · intro e p l err h
    by_cases hc : p + l > e.len
    · unfold FugueText.delete
      dsimp only []
      rw [if_pos hc]
    · unfold FugueText.delete at h ⊢
      dsimp only [] at h ⊢
      rw [if_neg hc] at h ⊢
      split at h
      · rename_i s0 ids0 err0 heq
        rcases Nat.eq_zero_or_pos l with hl0 | hl1
        · subst hl0
          have hshort := deleteFirstPass_zero_short p e.blocks 0
          rcases hEN : deleteFirstPass p 0 e.blocks 0 with _ | ⟨en, tail⟩
          · rw [hEN] at heq
            simp only [deleteSecondPass, Prod.mk.injEq] at heq
            exact absurd heq.2.2 (by simp)
          · have htail : tail = [] := by
              rw [hEN] at hshort
              simp only [List.length_cons] at hshort
              exact List.length_eq_zero.mp (by omega)
            subst htail
            rw [hEN] at heq
            obtain ⟨hs, -⟩ := deleteSecondPass_single_error _ _ _ _ _ _ heq
            rw [hs]
        · have hq := deleteFirstPass_entries_valid p l hl1 e.blocks 0
          have hno := deleteSecondPass_no_error _ hq e.blocks []
          rw [heq] at hno
          simp at hno
      · split at h <;> simp at h
  · intro a b err h
    simp [FugueText.mergeOp] at h

/-- Witness for C9: the out-of-bounds `delete(0, 10)` on `helloEngine`
returns an error and leaves the engine unchanged. -/
theorem C9_errors_do_not_mutate_witness :
    (helloEngine.delete 0 10).2 = .error (.RangeOutOfBounds 0 10 5) ∧
      (helloEngine.delete 0 10).1 = helloEngine :=
  ⟨by decide,
   C9_errors_do_not_mutate.2.1 helloEngine 0 10 (.RangeOutOfBounds 0 10 5) (by decide)⟩

/-! ### C10: the frame property of insert

The freshness of the new block's identifier rests on an invariant of all
reachable engines: every stored block's `id` equals its key, every key's
clock is at most the engine clock, and every block's grapheme length is at
most its key's clock (spec §3, invariant 1). -/

/-- Store-level invariant at clock bound `c`. -/
def StoreInv (c : Nat) (s : Store) : Prop :=
  ∀ kb ∈ s, kb.2.id = kb.1 ∧ kb.1.clock ≤ c ∧ kb.2.text.length ≤ kb.1.clock

/-- Engine-level invariant. -/
def EngineInv (e : FugueText) : Prop := StoreInv e.clock.value e.blocks

theorem StoreInv_mono (c c' : Nat) (s : Store) (hcc : c ≤ c') (h : StoreInv c s) :
    StoreInv c' s := by
  intro kb hm
  obtain ⟨h1, h2, h3⟩ := h kb hm
  exact ⟨h1, by omega, h3⟩

theorem StoreInv_insert (c : Nat) (s : Store) (k : NodeId) (v : FugueBlock)
    (h : StoreInv c s) (hv : v.id = k ∧ k.clock ≤ c ∧ v.text.length ≤ k.clock) :
    StoreInv c (storeInsert s k v) := by
  intro kb hm
  rcases mem_storeInsert k v kb s hm with he | hm2
  · rw [he]
    exact hv
  · exact h kb hm2

theorem StoreInv_erase (c : Nat) (s : Store) (k : NodeId) (h : StoreInv c s) :
    StoreInv c (storeErase s k) :=
  fun kb hm => h kb (mem_storeErase k kb s hm)

theorem splitBlockForDeletion_inv (c : Nat) (s : Store) (origId : NodeId)
    (origBlock : FugueBlock) (os oe : Nat) (ids : List NodeId)
    (res : Store × List NodeId)
    (hs : StoreInv c s) (hbl : origBlock.text.length ≤ origId.clock)
    (hbc : origId.clock ≤ c)
    (h : splitBlockForDeletion s origId origBlock os oe ids = .ok res) :
    StoreInv c res.1 := by
  unfold splitBlockForDeletion at h
  dsimp only [] at h
  split at h
  · simp at h
  · next hval =>
    split at h
    · rw [← Except.ok.inj h]
      exact hs
    · have hr := Except.ok.inj h
      have hos : os < origBlock.text.length := by
        by_contra h1
        exact hval (Or.inl (by omega))
      have hoe : oe ≤ origBlock.text.length := by
        by_contra h1
        exact hval (Or.inr (Or.inl (by omega)))
      have hoso : os < oe := by
        by_contra h1
        exact hval (Or.inr (Or.inr (by omega)))
      have base : StoreInv c (storeErase s origId) := StoreInv_erase c s origId hs
      have s2inv : StoreInv c (if (origBlock.text.take os).isEmpty = true
          then storeErase s origId
          else storeInsert (storeErase s origId)
            ⟨origId.client_id, origId.clock - origBlock.text.length + 1 + os - 1, 0⟩
            ⟨⟨origId.client_id, origId.clock - origBlock.text.length + 1 + os - 1, 0⟩,
              origBlock.text.take os, origBlock.left_origin, origBlock.right_origin, false⟩) := by
        split
        · exact base
        · refine StoreInv_insert c _ _ _ base ⟨rfl, ?_, ?_⟩
          · show origId.clock - origBlock.text.length + 1 + os - 1 ≤ c
            omega
          · show (origBlock.text.take os).length ≤
              origId.clock - origBlock.text.length + 1 + os - 1
            rw [List.length_take]
            omega
      have s3bound : ((⟨origId.client_id,
          origId.clock - origBlock.text.length + 1 + oe - 1, 0⟩ : NodeId).clock ≤ c) ∧
          ((origBlock.text.drop os).take (oe - os)).length ≤
            (⟨origId.client_id,
              origId.clock - origBlock.text.length + 1 + oe - 1, 0⟩ : NodeId).clock := by
        constructor
        · show origId.clock - origBlock.text.length + 1 + oe - 1 ≤ c
          omega
        · show ((origBlock.text.drop os).take (oe - os)).length ≤
            origId.clock - origBlock.text.length + 1 + oe - 1
          rw [List.length_take, List.length_drop]
          omega
      rw [← hr]
      dsimp only []
      split
      · exact StoreInv_insert c _ _ _ s2inv ⟨rfl, s3bound.1, s3bound.2⟩
      · refine StoreInv_insert c _ _ _
          (StoreInv_insert c _ _ _ s2inv ⟨rfl, s3bound.1, s3bound.2⟩) ⟨rfl, ?_, ?_⟩
        · show origId.clock - origBlock.text.length + 1 + origBlock.text.length - 1 ≤ c
          omega
        · show (origBlock.text.drop oe).length ≤
            origId.clock - origBlock.text.length + 1 + origBlock.text.length - 1
          rw [List.length_drop]
          omega

theorem deleteSecondPass_inv (c : Nat) :
    ∀ (entries : List SplitEntry) (s : Store) (ids : List NodeId),
      StoreInv c s →
      (∀ en ∈ entries, en.origBlock.text.length ≤ en.origId.clock ∧ en.origId.clock ≤ c) →
      StoreInv c (deleteSecondPass s ids entries).1 := by
  intro entries
  induction entries with
  | nil => intro s ids hs _; exact hs
  | cons en rest ih =>
    intro s ids hs hen
    obtain ⟨hb1, hb2⟩ := hen en (by simp)
    have hrest := fun x hx => hen x (List.mem_cons_of_mem _ hx)
    unfold deleteSecondPass
    split
    · split
      · exact hs
      · next si heq =>
        exact ih si.1 si.2 (splitBlockForDeletion_inv c s en.origId en.origBlock
          en.offStart en.offEnd ids si hs hb1 hb2 heq) hrest
    · split
      · next b heq =>
        have hmem := storeFind_mem en.origId b s heq
        obtain ⟨h1, h2, h3⟩ := hs (en.origId, b) hmem
        refine ih _ _ (StoreInv_insert c s en.origId (FugueBlock.mark_deleted b) hs
          ⟨?_, h2, h3⟩) hrest
        simp only [FugueBlock.mark_deleted]
        exact h1
      · exact ih s ids hs hrest

theorem deleteFirstPass_entries_mem (p l : Nat) :
    ∀ (s : Store) (cur : Nat), ∀ en ∈ deleteFirstPass p l s cur,
      (en.origId, en.origBlock) ∈ s := by
  intro s
  induction s with
  | nil => intro cur en hm; simp [deleteFirstPass] at hm
  | cons kb rest ih =>
    obtain ⟨k, b⟩ := kb
    intro cur en hm
    unfold deleteFirstPass at hm
    split at hm
    · exact List.mem_cons_of_mem _ (ih cur en hm)
    · rcases List.mem_append.mp hm with hm | hm
      · split at hm
        · simp only [List.mem_singleton] at hm
          subst hm
          simp
        · simp at hm
      · exact List.mem_cons_of_mem _ (ih (cur + b.len) en hm)

theorem delete_blocks_clock (e : FugueText) (p l : Nat) (hc : ¬ p + l > e.len) :
    (e.delete p l).1.blocks =
      (deleteSecondPass e.blocks [] (deleteFirstPass p l e.blocks 0)).1 ∧
    (e.delete p l).1.clock = e.clock := by
  unfold FugueText.delete
  dsimp only []
  rw [if_neg hc]
  split
  · next s0 ids0 err0 heq =>
    rw [heq]
    exact ⟨rfl, rfl⟩
  · next s0 ids0 heq =>
    rw [heq]
    split
    · exact ⟨rfl, rfl⟩
    · exact ⟨rfl, rfl⟩

theorem EngineInv_new (cid : String) : EngineInv (FugueText.new cid) := by
  intro kb hm
  simp [FugueText.new] at hm

theorem EngineInv_insert (e : FugueText) (p : Nat) (t : List (List Char))
    (h : EngineInv e) : EngineInv (FugueText.insert e p t).1 := by
  unfold FugueText.insert
  dsimp only []
  split
  · exact h
  · intro kb hm
    rcases mem_storeInsert _ _ kb e.blocks hm with he | hm2
    · rw [he]
      exact ⟨rfl, Nat.le_refl _, Nat.le_add_left _ _⟩
    · obtain ⟨h1, h2, h3⟩ := h kb hm2
      exact ⟨h1, le_trans h2 (Nat.le_add_right _ _), h3⟩

theorem EngineInv_delete (e : FugueText) (p l : Nat)
    (h : EngineInv e) : EngineInv (FugueText.delete e p l).1 := by
  by_cases hc : p + l > e.len
  · unfold FugueText.delete
    dsimp only []
    rw [if_pos hc]
    exact h
  · obtain ⟨hb, hck⟩ := delete_blocks_clock e p l hc
    unfold EngineInv
    rw [hb, hck]
    refine deleteSecondPass_inv e.clock.value _ e.blocks [] h ?_
    intro en hen
    have hmem := deleteFirstPass_entries_mem p l e.blocks 0 en hen
    obtain ⟨h1, h2, h3⟩ := h (en.origId, en.origBlock) hmem
    exact ⟨h3, h2⟩

theorem foldl_max_ge_init :
    ∀ (l : List (NodeId × FugueBlock)) (init : Nat),
      init ≤ l.foldl (fun m kb => max m kb.2.id.clock) init := by
  intro l
  induction l with
  | nil => intro init; exact Nat.le_refl init
  | cons kb rest ih =>
    intro init
    exact le_trans (Nat.le_max_left init kb.2.id.clock) (ih (max init kb.2.id.clock))

theorem maxRemoteClock_bound :
    ∀ (l : List (NodeId × FugueBlock)) (init : Nat), ∀ kb ∈ l,
      kb.2.id.clock ≤ l.foldl (fun m kb => max m kb.2.id.clock) init := by
  intro l
  induction l with
  | nil => intro init kb hm; simp at hm
  | cons kb0 rest ih =>
    intro init kb hm
    simp only [List.foldl_cons]
    rcases List.mem_cons.mp hm with he | hm2
    · rw [he]
      exact le_trans (Nat.le_max_right init kb0.2.id.clock)
        (foldl_max_ge_init rest (max init kb0.2.id.clock))
    · exact ih (max init kb0.2.id.clock) kb hm2

theorem EngineInv_merge (a b : FugueText) (ha : EngineInv a) (hb : EngineInv b) :
    EngineInv (FugueText.merge a b) := by
  unfold EngineInv FugueText.merge StoreInv
  dsimp only [LamportClock.update]
  unfold mergeStore
  have hstep : ∀ (l : List (NodeId × FugueBlock)), (∀ kb ∈ l, kb ∈ b.blocks) →
      ∀ (acc : Store),
      (∀ kb ∈ acc, kb.2.id = kb.1 ∧
        kb.1.clock ≤ max a.clock.value (maxRemoteClock b.blocks) ∧
        kb.2.text.length ≤ kb.1.clock) →
      ∀ kb ∈ l.foldl
        (fun acc kb =>
          match storeFind acc kb.1 with
          | some lb =>
            if kb.2.deleted && !lb.deleted then
              storeInsert acc kb.1 (FugueBlock.mark_deleted lb)
            else acc
          | none => storeInsert acc kb.1 kb.2)
        acc,
        kb.2.id = kb.1 ∧ kb.1.clock ≤ max a.clock.value (maxRemoteClock b.blocks) ∧
          kb.2.text.length ≤ kb.1.clock := by
    intro l
    induction l with
    | nil => intro _ acc hacc kb hm; exact hacc kb hm
    | cons kb0 rest ih =>
      intro hsub acc hacc
      have hsub2 : ∀ kb ∈ rest, kb ∈ b.blocks :=
        fun kb hm => hsub kb (List.mem_cons_of_mem _ hm)
      have hkb0 : kb0 ∈ b.blocks := hsub kb0 (by simp)
      obtain ⟨hr1, hr2, hr3⟩ := hb kb0 hkb0
      simp only [List.foldl_cons]
      refine ih hsub2 _ ?_
      intro kb hm
      split at hm
      · next lb heq =>
        split at hm
        · rcases mem_storeInsert _ _ kb acc hm with he | hm2
          · rw [he]
            obtain ⟨g1, g2, g3⟩ := hacc (kb0.1, lb) (storeFind_mem _ _ _ heq)
            exact ⟨by simpa [FugueBlock.mark_deleted] using g1, g2, g3⟩
          · exact hacc kb hm2
        · exact hacc kb hm
      · rcases mem_storeInsert _ _ kb acc hm with he | hm2
        · rw [he]
          refine ⟨hr1, ?_, hr3⟩
          show kb0.1.clock ≤ max a.clock.value (maxRemoteClock b.blocks)
          have hmx := maxRemoteClock_bound b.blocks 0 kb0 hkb0
          rw [hr1] at hmx
          unfold maxRemoteClock
          exact le_trans hmx (Nat.le_max_right _ _)
        · exact hacc kb hm2
  refine hstep b.blocks (fun kb hm => hm) a.blocks ?_
  intro kb hm
  obtain ⟨h1, h2, h3⟩ := ha kb hm
  exact ⟨h1, by omega, h3⟩

theorem reachable_EngineInv (e : FugueText) (h : Reachable e) : EngineInv e := by
  induction h with
  | new cid => exact EngineInv_new cid
  | insert e p t _ ih => exact EngineInv_insert e p t ih
  | delete e p l _ ih => exact EngineInv_delete e p l ih
  | merge a b _ _ iha ihb => exact EngineInv_merge a b iha ihb

/-- C10: inserting a nonempty text at a valid position returns the id
`(local replica, old clock + grapheme count, 0)`, leaves every block
already present in the store exactly as it was (id, text, origins and
deleted flag — only the derived position caches change), and grows the
store by exactly one new block under that fresh id. -/
theorem C10_insert_frame (e : FugueText) (p : Nat) (t : List (List Char))
    (hr : Reachable e) (ht : t ≠ []) (hp : p ≤ e.len) :
    (e.insert p t).2 = .ok ⟨e.client_id, e.clock.value + t.length, 0⟩ ∧
    storeFind e.blocks ⟨e.client_id, e.clock.value + t.length, 0⟩ = none ∧
    storeFind (e.insert p t).1.blocks ⟨e.client_id, e.clock.value + t.length, 0⟩ =
      some ⟨⟨e.client_id, e.clock.value + t.length, 0⟩, t,
        (findOrigins e p).1, (findOrigins e p).2, false⟩ ∧
    (∀ k, k ≠ ⟨e.client_id, e.clock.value + t.length, 0⟩ →
      storeFind (e.insert p t).1.blocks k = storeFind e.blocks k) ∧
    (e.insert p t).1.blocks.length = e.blocks.length + 1 := by
  have hinv := reachable_EngineInv e hr
  have htlen : 1 ≤ t.length := by
    cases t with
    | nil => exact absurd rfl ht
    | cons x xs => simp
  have hfresh : storeFind e.blocks ⟨e.client_id, e.clock.value + t.length, 0⟩ = none := by
    apply storeFind_eq_none_of_clock_gt
    intro kb hm
    have := (hinv kb hm).2.1
    show kb.1.clock < e.clock.value + t.length
    omega
  have hnotgt : ¬ p > e.len := by omega
  unfold FugueText.insert
  dsimp only []
  rw [if_neg hnotgt]
  refine ⟨rfl, hfresh, ?_, ?_, ?_⟩
  · exact storeFind_insert_self e.blocks _ _
  · intro k hk
    exact storeFind_insert_ne e.blocks _ _ k hk
  · exact storeInsert_length _ _ e.blocks hfresh

/-- Witness for C10: `helloEngine` is reachable, the text "!" is nonempty,
position 5 is in bounds, and the insert returns id `(c1, 6, 0)` while
growing the store from one block to two. -/
theorem C10_insert_frame_witness :
    (helloEngine.insert 5 [['!']]).2 = .ok ⟨"c1", 6, 0⟩ ∧
      (helloEngine.insert 5 [['!']]).1.blocks.length = helloEngine.blocks.length + 1 := by
  have hr : Reachable helloEngine :=
    Reachable.insert (FugueText.new "c1") 0 [['H'], ['e'], ['l'], ['l'], ['o']]
      (Reachable.new "c1")
  have h := C10_insert_frame helloEngine 5 [['!']] hr (by decide) (by decide)
  exact ⟨h.1, h.2.2.2.2⟩
